import Mathlib

/-!
# Verification of the PDP internal-linking prototype

Shallow embedding of `src/app.js`.  The repository holds two prototype
variants of the same page script, concatenated in one source file:

* variant 1 ("exact+fallback"): n-gram exact matching with a single-token
  fallback pass (`runMatching`, first half of the file);
* variant 2 ("scattered"): all-keywords-present matching (`runMatching`,
  second half of the file).

Pure functions (normalize, generateNGrams, escapeRegex, the matching
passes, ranking, deduplication and the highlight regex application) are
translated into executable Lean definitions; the DOM / file-download glue
is out of scope except for the tiny `lastMatches` state machine needed by
the export guard.
-/

namespace Pdp

/-! ## Normalizer (`normalize`, src/app.js lines 91-96 and 405-411)

JS: `text.toLowerCase().replace(/[^a-z0-9\s]/g,' ').replace(/\s+/g,' ').trim()`.
Lowercasing is modelled on the Basic Latin range (the only range the
catalog/query data exercises: any character whose lowercase form is not in
`[a-z0-9\s]` becomes a space anyway). -/

/-- `String.prototype.toLowerCase`, per character, ASCII range. -/
def jsToLowerChar (c : Char) : Char :=
  if decide ('A' ≤ c) && decide (c ≤ 'Z') then Char.ofNat (c.toNat + 32) else c

/-- Character class `[a-z0-9]` of the normalizer's keep-regex. -/
def isKeptChar (c : Char) : Bool :=
  (decide ('a' ≤ c) && decide (c ≤ 'z')) || (decide ('0' ≤ c) && decide (c ≤ '9'))

/-- JS regex `\s` / whitespace as used by `trim`, on the ASCII range. -/
def isSpaceJs (c : Char) : Bool :=
  c == ' ' || c == '\t' || c == '\n' || c == '\r' || c == '\x0b' || c == '\x0c'

/-- One step of `.replace(/[^a-z0-9\s]/g, ' ')`. -/
def punctToSpace (c : Char) : Char :=
  if isKeptChar c || isSpaceJs c then c else ' '

/-- Lowercase then punctuation-to-space, the per-character part of `normalize`. -/
def lowerPunct (c : Char) : Char := punctToSpace (jsToLowerChar c)

/-- `.replace(/\s+/g, ' ')`: every maximal whitespace run becomes one space. -/
def collapseWs : List Char → List Char
  | [] => []
  | [c] => if isSpaceJs c then [' '] else [c]
  | c1 :: c2 :: rest =>
    if isSpaceJs c1 then
      if isSpaceJs c2 then collapseWs (c2 :: rest)
      else ' ' :: collapseWs (c2 :: rest)
    else c1 :: collapseWs (c2 :: rest)

/-- `String.prototype.trim`: strip leading and trailing whitespace. -/
def trimWs (l : List Char) : List Char :=
  ((l.dropWhile isSpaceJs).reverse.dropWhile isSpaceJs).reverse

/-- Invariant of `collapseWs` output (and of `normalize`'s final result):
no two consecutive whitespace-class characters. -/
def NoDouble (l : List Char) : Prop :=
  List.Chain' (fun a b => ¬(isSpaceJs a = true ∧ isSpaceJs b = true)) l

/-- The body of `normalize` on character lists. -/
def normalizeL (l : List Char) : List Char :=
  trimWs (collapseWs (l.map lowerPunct))

/-- `normalize(text)` on strings (both variants share this computation). -/
def normalize (s : String) : String := String.mk (normalizeL s.data)

/-- `rawH1.trim()` as used by the input guards. -/
def jsTrim (s : String) : String := String.mk (trimWs s.data)

/-- Variant 1's `normalize` as invoked on a possibly-`undefined` JS value
(src/app.js lines 91-96): `text.toLowerCase()` throws a `TypeError` when
`text` is `undefined`, since there is no guard. `none` models `undefined`;
`Except.error ()` models the thrown `TypeError`. -/
def jsNormalizeExact : Option String → Except Unit String
  | none => Except.error ()
  | some s => Except.ok (normalize s)

/-- Variant 2's `normalize` (src/app.js lines 405-411): `if (!text) return "";`
guards both `undefined` and the empty string before the same chain. -/
def jsNormalizeScattered : Option String → String
  | none => ""
  | some s => if s == "" then "" else normalize s

/-! ## Tokenizer / N-gram generator (`generateNGrams`, src/app.js lines 102-121) -/

/-- JS `str.split(' ')`: cut at every single space, keeping empty pieces
(so `"a  b".split(' ')` is `["a","","b"]` and `"".split(' ')` is `[""]`). -/
def splitOnSpace : List Char → List (List Char)
  | [] => [[]]
  | c :: rest =>
    match splitOnSpace rest with
    | [] => [[]]
    | w :: ws => if c == ' ' then [] :: w :: ws else (c :: w) :: ws

/-- `text.split(' ').filter(t => t)`. -/
def splitTokens (s : String) : List String :=
  ((splitOnSpace s.data).map String.mk).filter (fun t => !(t == ""))

/-- `tokens.slice(i, i + n).join(' ')` for `i` in `0 .. tokens.length - n`. -/
def slidingJoins (tokens : List String) (n : Nat) : List String :=
  (List.range (tokens.length - n + 1)).map
    (fun i => String.intercalate " " ((tokens.drop i).take n))

/-- The outer-loop sizes `n = maxN, maxN-1, ..., 1`. -/
def descNs (maxN : Nat) : List Nat := (List.range maxN).reverse.map (· + 1)

/-- All window joins before dedup, in the loop order of the source. -/
def rawNGrams (tokens : List String) : List String :=
  (descNs (min 4 tokens.length)).flatMap (slidingJoins tokens)

/-- The `seen` set: keep the first occurrence of each gram, drop the rest. -/
def dedupAux : List String → List String → List String
  | _, [] => []
  | seen, g :: rest =>
    if g ∈ seen then dedupAux seen rest else g :: dedupAux (g :: seen) rest

/-- `generateNGrams(text)` returning `(nGrams, tokens)`. -/
def generateNGrams (text : String) : List String × List String :=
  let tokens := splitTokens text
  (dedupAux [] (rawNGrams tokens), tokens)

/-! ## Data model (`processCSVData`, src/app.js lines 49-83 and 349-397)

A catalog row after load.  In variant 1 the token list is stored as
`tokens`, in variant 2 as `requiredKeywords`; both are
`normalize(rawPhrase).split(' ').filter(t => t)`, so one structure serves
both, with `tokens` playing the role of `requiredKeywords` for variant 2. -/

structure Row where
  id : Nat
  phrase : String
  tokens : List String
  url : String
  anchor : String
deriving DecidableEq

inductive MatchType where
  | exact
  | fallback
  | scattered
deriving DecidableEq

/-- A match candidate: the spread row plus `matchType`, `score` and (for
variant 1) `matchText`; variant 2 produces no match text. -/
structure Candidate where
  id : Nat
  phrase : String
  tokens : List String
  url : String
  anchor : String
  matchType : MatchType
  score : Nat
  matchText : Option String
deriving DecidableEq

/-- Variant 1 row construction from raw `(phrase, url, anchor)` triples in
source-row order: normalize the phrase, tokenize, trim url/anchor, and drop
rows with an empty phrase, url or anchor (`.filter(item => item.phrase &&
item.url && item.anchor)`). -/
def buildRows (rows : List (String × String × String)) : List Row :=
  (rows.enum.map (fun p =>
    { id := p.1
      phrase := normalize p.2.1
      tokens := splitTokens (normalize p.2.1)
      url := jsTrim p.2.2.1
      anchor := jsTrim p.2.2.2 : Row })).filter
    (fun r => !(r.phrase == "") && !(r.url == "") && !(r.anchor == ""))

/-- Variant 2 row construction: same mapping, but the validity filter is
`item.requiredKeywords.length > 0 && item.url && item.anchor`. -/
def buildRowsSc (rows : List (String × String × String)) : List Row :=
  (rows.enum.map (fun p =>
    { id := p.1
      phrase := normalize p.2.1
      tokens := splitTokens (normalize p.2.1)
      url := jsTrim p.2.2.1
      anchor := jsTrim p.2.2.2 : Row })).filter
    (fun r => decide (0 < r.tokens.length) && !(r.url == "") && !(r.anchor == ""))

/-! ## Matcher, variant 1 (`runMatching`, src/app.js lines 123-200) -/

/-- The candidate pushed in Pass 1: `{...row, matchType:'exact',
score: row.tokens.length, matchText: gram}`. -/
def mkExact (row : Row) (gram : String) : Candidate :=
  { id := row.id, phrase := row.phrase, tokens := row.tokens
    url := row.url, anchor := row.anchor
    matchType := MatchType.exact, score := row.tokens.length
    matchText := some gram }

/-- The candidate pushed in Pass 2: `{...row, matchType:'fallback',
score: 1, matchText: row.phrase}`. -/
def mkFallback (row : Row) : Candidate :=
  { id := row.id, phrase := row.phrase, tokens := row.tokens
    url := row.url, anchor := row.anchor
    matchType := MatchType.fallback, score := 1
    matchText := some row.phrase }

/-- Pass 1 body for one n-gram: filter the catalog on `row.phrase === gram`
and push each not-yet-matched row, recording its id in `matchedRowIndices`.
State is `(matches, matchedRowIndices)`. -/
def pass1Gram (catalog : List Row) (st : List Candidate × List Nat)
    (gram : String) : List Candidate × List Nat :=
  (catalog.filter (fun row => row.phrase == gram)).foldl
    (fun st row =>
      if row.id ∈ st.2 then st
      else (st.1 ++ [mkExact row gram], row.id :: st.2))
    st

/-- Pass 1: exact n-gram matching over the grams in `generateNGrams` order. -/
def pass1 (catalog : List Row) (nGrams : List String) :
    List Candidate × List Nat :=
  nGrams.foldl (pass1Gram catalog) ([], [])

/-- Pass 2: single-token fallback. For every still-unmatched row whose
token list has exactly one element, membership of `row.phrase` in the
query's token list (`h1Tokens.includes(token)`) emits a fallback candidate. -/
def pass2 (catalog : List Row) (h1Tokens : List String)
    (st : List Candidate × List Nat) : List Candidate × List Nat :=
  catalog.foldl
    (fun st row =>
      if row.id ∈ st.2 then st
      else if row.tokens.length == 1 && h1Tokens.contains row.phrase then
        (st.1 ++ [mkFallback row], row.id :: st.2)
      else st)
    st

/-! ## Ranking and deduplication (src/app.js lines 181-196 and 448-463)

`matches.sort((a, b) => b.score - a.score)` is ECMAScript `Array.prototype.sort`,
which is required to be stable; with the total preorder given by `score`
its result is the unique stable descending reordering, which the insertion
sort below computes: an element is inserted before the first earlier-sorted
element whose key is `≤` its own, so equal keys keep first-seen order.
The same comparator shape (`(a, b) => b.length - a.length`) sorts the
highlight phrase lists, hence the key function is a parameter. -/

def insertByDesc (key : α → Nat) (c : α) : List α → List α
  | [] => [c]
  | d :: rest =>
    if key d ≤ key c then c :: d :: rest else d :: insertByDesc key c rest

def sortByDesc (key : α → Nat) (l : List α) : List α :=
  l.foldr (insertByDesc key) []

/-- The dedup key `` `${m.url}|${m.anchor}` ``. -/
def linkKey (c : Candidate) : String := c.url ++ "|" ++ c.anchor

/-- The `(destinationUrl, anchorText)` pair itself (what the spec says the
dedup is keyed on). -/
def pairOf (c : Candidate) : String × String := (c.url, c.anchor)

/-- The dedup scan: keep the first candidate per `linkKey`, tracking seen
keys (`seenLinks`). -/
def dedupAuxC : List String → List Candidate → List Candidate
  | _, [] => []
  | seen, c :: rest =>
    if linkKey c ∈ seen then dedupAuxC seen rest
    else c :: dedupAuxC (linkKey c :: seen) rest

/-- `uniqueMatches` from `matches` (already sorted). -/
def dedupLinks (l : List Candidate) : List Candidate := dedupAuxC [] l

/-- The discovery-ordered candidate list of variant 1 (Pass 1 then Pass 2). -/
def discoveredEF (catalog : List Row) (raw : String) : List Candidate :=
  let g := generateNGrams (normalize raw)
  (pass2 catalog g.2 (pass1 catalog g.1)).1

/-- Variant 1 `uniqueMatches`: stable sort by score descending, then dedup. -/
def matchSetEF (catalog : List Row) (raw : String) : List Candidate :=
  dedupLinks (sortByDesc Candidate.score (discoveredEF catalog raw))

/-- Variant 1 `runMatching` with its two input guards (`alert` + early
return is modelled as `none`). -/
def runMatchingEF (catalog : List Row) (raw : String) :
    Option (List Candidate) :=
  if catalog.length == 0 then none
  else if jsTrim raw == "" then none
  else some (matchSetEF catalog raw)

/-! ## Matcher, variant 2 (`runMatching`, src/app.js lines 413-467) -/

/-- The candidate pushed by scattered matching: `{...row,
matchType:'scattered', score: row.requiredKeywords.length}`; no match text. -/
def mkScattered (row : Row) : Candidate :=
  { id := row.id, phrase := row.phrase, tokens := row.tokens
    url := row.url, anchor := row.anchor
    matchType := MatchType.scattered, score := row.tokens.length
    matchText := none }

/-- Scattered pass: a row matches when every required keyword is in the
query's token set (`new Set(...)`; only membership is used, so a list
suffices). -/
def scatteredMatches (catalog : List Row) (h1Tokens : List String) :
    List Candidate :=
  catalog.foldl
    (fun ms row =>
      if row.tokens.all (fun k => h1Tokens.contains k) then
        ms ++ [mkScattered row]
      else ms)
    []

/-- The discovery-ordered candidate list of variant 2 (catalog order). -/
def discoveredSc (catalog : List Row) (raw : String) : List Candidate :=
  scatteredMatches catalog (splitTokens (normalize raw))

/-- Variant 2 `uniqueMatches`. -/
def matchSetSc (catalog : List Row) (raw : String) : List Candidate :=
  dedupLinks (sortByDesc Candidate.score (discoveredSc catalog raw))

/-- Variant 2 `runMatching` with the same input guards. -/
def runMatchingSc (catalog : List Row) (raw : String) :
    Option (List Candidate) :=
  if catalog.length == 0 then none
  else if jsTrim raw == "" then none
  else some (matchSetSc catalog raw)

/-! ## Highlighter (`renderResults`, src/app.js lines 204-222 and 471-495)

Variant 1 builds the pattern `` `\\b(${phrasesToHighlight.join('|')})\\b` ``
from the regex-escaped candidate phrases, sorted by (escaped) length
descending, with flags `gi`, and applies
`originalH1.replace(regex, m => `<span class="highlight">${m}</span>`)`.
Because `escapeRegex` escapes every regex metacharacter, each alternative
denotes its unescaped string as a literal; the regex semantics embedded
below is therefore: scan left to right, at each position take the first
alternative that matches case-insensitively and satisfies the `\b`
assertions on both sides, wrap the matched original-text span, continue
after it (a zero-width match advances one character, as the `g` flag does). -/

/-- `escapeRegex` (src/app.js lines 258-260 and 531-533): prefix every
character of the class `[.*+?^${}()|[\]\\]` with a backslash.  The two
brace characters are written numerically to keep them out of string
literals. -/
def regexSpecials : List Char :=
  ['.', '*', '+', '?', '^', '$', Char.ofNat 123, Char.ofNat 125,
   '(', ')', '|', '[', ']', '\\']

def escapeRegex (s : String) : String :=
  String.mk (s.data.flatMap (fun c => if c ∈ regexSpecials then ['\\', c] else [c]))

/-- Interpretation of an escaped alternative back to the literal string it
denotes inside the pattern: `escapeRegex` only ever puts a backslash in
front of a metacharacter, and a backslash-escaped metacharacter matches
itself. -/
def unescapeRegex (s : String) : String :=
  String.mk (go s.data)
where
  go : List Char → List Char
    | [] => []
    | '\\' :: c :: rest => c :: go rest
    | c :: rest => c :: go rest

/-- JS regex word character (`\w` / the classes `\b` tests): `[A-Za-z0-9_]`. -/
def isWordChar (c : Char) : Bool :=
  (decide ('a' ≤ c) && decide (c ≤ 'z')) || (decide ('A' ≤ c) && decide (c ≤ 'Z'))
    || (decide ('0' ≤ c) && decide (c ≤ '9')) || c == '_'

/-- Case-insensitive character comparison, the `i` flag on the ASCII range. -/
def ciEq (a b : Char) : Bool := jsToLowerChar a == jsToLowerChar b

/-- Whether the (possibly absent) character on one side of a position is a
word character; out of bounds counts as non-word. -/
def wb : Option Char → Bool
  | none => false
  | some c => isWordChar c

/-- The `\b` assertion between two neighbouring (possibly absent) characters. -/
def boundaryAt (prev next : Option Char) : Bool := wb prev != wb next

/-- Case-insensitive literal prefix match: on success returns the consumed
span (taken verbatim from the text) and the remaining text. -/
def stripPrefixCI : List Char → List Char → Option (List Char × List Char)
  | [], t => some ([], t)
  | _ :: _, [] => none
  | p :: ps, t :: ts =>
    if ciEq p t then
      match stripPrefixCI ps ts with
      | some (m, r) => some (t :: m, r)
      | none => none
    else none

/-- Try the pattern's alternatives in order at the current position
(`prev` is the character just before the position). The first alternative
that matches the text and satisfies both `\b` assertions wins. -/
def firstMatch (prev : Option Char) (text : List Char) :
    List (List Char) → Option (List Char × List Char)
  | [] => none
  | p :: ps =>
    match stripPrefixCI p text with
    | some (m, r) =>
      if boundaryAt prev text.head?
          && boundaryAt (if m.isEmpty then prev else m.getLast?) r.head? then
        some (m, r)
      else firstMatch prev text ps
    | none => firstMatch prev text ps

/-- A piece of the replace output: untouched literal text, or a span that
got wrapped in the highlight marker. -/
inductive Seg where
  | lit (s : List Char)
  | mark (s : List Char)
deriving DecidableEq

/-- The global-replace scan.  `fuel` only drives structural recursion; any
`fuel ≥ text.length` computes the scan (every step either consumes at least
one character or ends the text). -/
def scanFuel (alts : List (List Char)) : Nat → Option Char → List Char → List Seg
  | 0, _, _ => []
  | _ + 1, prev, [] =>
    match firstMatch prev [] alts with
    | some _ => [Seg.mark []]
    | none => []
  | fuel + 1, prev, t :: ts =>
    match firstMatch prev (t :: ts) alts with
    | some (m, r) =>
      if m.isEmpty then Seg.mark [] :: Seg.lit [t] :: scanFuel alts fuel (some t) ts
      else Seg.mark m :: scanFuel alts fuel m.getLast? r
    | none => Seg.lit [t] :: scanFuel alts fuel (some t) ts

/-- Segment decomposition of one global replace over `title` with the given
(already unescaped) literal alternatives. -/
def highlightSegs (alts : List String) (title : String) : List Seg :=
  scanFuel (alts.map String.data) title.data.length none title.data

def tagOpen : List Char := "<span class=\"highlight\">".data

def tagClose : List Char := "</span>".data

/-- Rendering of one segment into the output markup. -/
def renderSeg : Seg → List Char
  | Seg.lit s => s
  | Seg.mark s => tagOpen ++ s ++ tagClose

/-- The original-text characters a segment carries (its text outside /
inside the inserted marker). -/
def segPayload : Seg → List Char
  | Seg.lit s => s
  | Seg.mark s => s

/-- Variant 1 highlight, as segments: phrases are the candidates' (escaped)
`m.phrase` sorted by length descending; an empty match set leaves the title
as one literal segment (`if (phrasesToHighlight.length > 0)`). -/
def renderSegsEF (title : String) (ms : List Candidate) : List Seg :=
  if ms.isEmpty then [Seg.lit title.data]
  else
    highlightSegs
      ((sortByDesc String.length (ms.map (fun m => escapeRegex m.phrase))).map
        unescapeRegex)
      title

/-- Variant 1 `htmlTitle`. -/
def renderTitleEF (title : String) (ms : List Candidate) : String :=
  String.mk (((renderSegsEF title ms).map renderSeg).flatten)

/-- Variant 2 keyword collection: the union of all matched rows' keywords
in JS `Set` insertion order (first occurrence kept). -/
def allMatchedKeywords (ms : List Candidate) : List String :=
  dedupAux [] (ms.flatMap (fun m => m.tokens))

/-- Variant 2 highlight, as segments: the keyword union sorted by length
descending, each keyword escaped into the pattern. -/
def renderSegsSc (title : String) (ms : List Candidate) : List Seg :=
  if (allMatchedKeywords ms).isEmpty then [Seg.lit title.data]
  else
    highlightSegs
      (((sortByDesc String.length (allMatchedKeywords ms)).map escapeRegex).map
        unescapeRegex)
      title

/-- Variant 2 `htmlTitle`. -/
def renderTitleSc (title : String) (ms : List Candidate) : String :=
  String.mk (((renderSegsSc title ms).map renderSeg).flatten)

/-- Variant 1 full run: match set plus the highlighted title rendered from
the raw (untrimmed, unnormalized) input, as `renderResults(rawH1,
uniqueMatches)` receives it. -/
def runRenderEF (catalog : List Row) (raw : String) :
    Option (String × List Candidate) :=
  match runMatchingEF catalog raw with
  | none => none
  | some ms => some (renderTitleEF raw ms, ms)

/-! ## Export state (`lastMatches`, `exportHTML`, src/app.js lines 7-8,
196-199, 264-268) -/

structure AppState where
  csvData : List Row
  lastMatches : List Candidate
deriving DecidableEq

/-- One click of Run: a guard failure leaves the state untouched, a
completed run stores `uniqueMatches` into `lastMatches`. -/
def clickRun (st : AppState) (raw : String) : AppState :=
  match runMatchingEF st.csvData raw with
  | none => st
  | some ms => { st with lastMatches := ms }

/-- Whether `exportHTML` (or `exportJSON`) does anything:
`if (!lastMatches.length) return;`. -/
def exportFires (st : AppState) : Bool := !st.lastMatches.isEmpty

/-! ## Ranking and deduplication lemmas -/

theorem mem_insertByDesc {key : α → Nat} (c x : α) (l : List α) :
    x ∈ insertByDesc key c l ↔ x = c ∨ x ∈ l := by
  induction l with
  | nil => simp [insertByDesc]
  | cons d rest ih =>
    by_cases h : key d ≤ key c
    · simp [insertByDesc, h]
    · simp only [insertByDesc, if_neg h, List.mem_cons, ih]
      tauto

theorem pairwise_insertByDesc {key : α → Nat} {c : α} {l : List α}
    (h : l.Pairwise (fun a b => key b ≤ key a)) :
    (insertByDesc key c l).Pairwise (fun a b => key b ≤ key a) := by
  induction l with
  | nil => simp [insertByDesc]
  | cons d rest ih =>
    rw [List.pairwise_cons] at h
    obtain ⟨h1, h2⟩ := h
    by_cases hle : key d ≤ key c
    · simp only [insertByDesc, if_pos hle]
      refine List.pairwise_cons.mpr ⟨?_, List.pairwise_cons.mpr ⟨h1, h2⟩⟩
      intro x hx
      rcases List.mem_cons.mp hx with rfl | hx'
      · exact hle
      · exact Nat.le_trans (h1 x hx') hle
    · simp only [insertByDesc, if_neg hle]
      refine List.pairwise_cons.mpr ⟨?_, ih h2⟩
      intro x hx
      rcases (mem_insertByDesc c x rest).mp hx with rfl | hx'
      · exact Nat.le_of_lt (Nat.lt_of_not_le hle)
      · exact h1 x hx'

/-- The insertion sort is sorted: scores descend along the result. -/
theorem pairwise_sortByDesc (key : α → Nat) (l : List α) :
    (sortByDesc key l).Pairwise (fun a b => key b ≤ key a) := by
  induction l with
  | nil => simp [sortByDesc]
  | cons a l ih => exact pairwise_insertByDesc ih

theorem filter_insertByDesc (key : α → Nat) (c : α) (l : List α) (s : Nat) :
    (insertByDesc key c l).filter (fun x => key x == s) =
      (c :: l).filter (fun x => key x == s) := by
  induction l with
  | nil => rfl
  | cons d rest ih =>
    by_cases hle : key d ≤ key c
    · simp only [insertByDesc, if_pos hle]
    · simp only [insertByDesc, if_neg hle]
      have hlt : key c < key d := Nat.lt_of_not_le hle
      by_cases hc : key c = s
      · have hd : ¬ (key d = s) := by omega
        simp [List.filter_cons, hc, hd, ih]
      · simp [List.filter_cons, hc, ih]

/-- Stability of the sort: for each score value, the sorted list restricted
to that score is exactly the input restricted to that score, in input
(discovery) order. -/
theorem filter_sortByDesc (key : α → Nat) (l : List α) (s : Nat) :
    (sortByDesc key l).filter (fun x => key x == s) =
      l.filter (fun x => key x == s) := by
  induction l with
  | nil => rfl
  | cons a l ih =>
    calc (insertByDesc key a (sortByDesc key l)).filter (fun x => key x == s)
        = (a :: sortByDesc key l).filter (fun x => key x == s) :=
          filter_insertByDesc key a (sortByDesc key l) s
      _ = (a :: l).filter (fun x => key x == s) := by
          simp [List.filter_cons, ih]

/-- The dedup scan only ever removes candidates. -/
theorem dedupAuxC_sublist (seen : List String) (l : List Candidate) :
    List.Sublist (dedupAuxC seen l) l := by
  induction l generalizing seen with
  | nil => simp [dedupAuxC]
  | cons c rest ih =>
    by_cases h : linkKey c ∈ seen
    · simp only [dedupAuxC, if_pos h]
      exact (ih seen).cons c
    · simp only [dedupAuxC, if_neg h]
      exact (ih _).cons₂ c

/-- Equal `(url, anchor)` pairs produce equal dedup keys. -/
theorem linkKey_congr {a b : Candidate} (h : pairOf a = pairOf b) :
    linkKey a = linkKey b := by
  unfold pairOf at h
  unfold linkKey
  rw [(Prod.mk.injEq _ _ _ _).mp h |>.1, (Prod.mk.injEq _ _ _ _).mp h |>.2]

theorem dedupAuxC_filter_none (p : String × String) :
    ∀ (l : List Candidate) (seen : List String),
      (∀ d ∈ l, pairOf d = p → linkKey d ∈ seen) →
      (dedupAuxC seen l).filter (fun c => decide (pairOf c = p)) = [] := by
  intro l
  induction l with
  | nil => intro seen _; rfl
  | cons c rest ih =>
    intro seen hseen
    by_cases h : linkKey c ∈ seen
    · simp only [dedupAuxC, if_pos h]
      exact ih seen (fun d hd => hseen d (List.mem_cons_of_mem c hd))
    · simp only [dedupAuxC, if_neg h]
      have hcp : ¬ (pairOf c = p) := fun hp => h (hseen c (List.mem_cons_self c rest) hp)
      rw [List.filter_cons]
      simp only [hcp, decide_eq_true_eq, if_false, decide_eq_false hcp, Bool.false_eq_true,
        if_neg]
      exact ih _ (fun d hd hp =>
        List.mem_cons_of_mem _ (hseen d (List.mem_cons_of_mem c hd) hp))

/-- The dedup scan keeps, for each pair `p` whose dedup key collides with
no other pair's key, exactly the first input candidate carrying `p`. -/
theorem dedupAuxC_filter_take (p : String × String) :
    ∀ (l : List Candidate) (seen : List String),
      (∀ a ∈ l, ∀ b ∈ l, linkKey a = linkKey b → pairOf a = pairOf b) →
      (∀ d ∈ l, pairOf d = p → linkKey d ∉ seen) →
      (dedupAuxC seen l).filter (fun c => decide (pairOf c = p)) =
        (l.filter (fun c => decide (pairOf c = p))).take 1 := by
  intro l
  induction l with
  | nil => intro seen _ _; rfl
  | cons c rest ih =>
    intro seen hinj hp
    have hinj' : ∀ a ∈ rest, ∀ b ∈ rest, linkKey a = linkKey b → pairOf a = pairOf b :=
      fun a ha b hb => hinj a (List.mem_cons_of_mem c ha) b (List.mem_cons_of_mem c hb)
    by_cases h : linkKey c ∈ seen
    · have hcp : ¬ (pairOf c = p) := fun hpc => hp c (List.mem_cons_self c rest) hpc h
      simp only [dedupAuxC, if_pos h, List.filter_cons, decide_eq_false hcp,
        Bool.false_eq_true, if_false]
      exact ih seen hinj' (fun d hd => hp d (List.mem_cons_of_mem c hd))
    · simp only [dedupAuxC, if_neg h, List.filter_cons]
      by_cases hcp : pairOf c = p
      · simp only [decide_eq_true hcp, if_true, List.take]
        rw [dedupAuxC_filter_none p rest _ (fun d hd hdp => by
          have hk : linkKey d = linkKey c := linkKey_congr (hdp.trans hcp.symm)
          exact hk ▸ List.mem_cons_self _ _)]
      · simp only [decide_eq_false hcp, Bool.false_eq_true, if_false]
        exact ih _ hinj' (fun d hd hdp => by
          intro hmem
          rcases List.mem_cons.mp hmem with heq | hmem'
          · exact hcp (((hinj d (List.mem_cons_of_mem c hd) c (List.mem_cons_self c rest)
              heq).symm.trans hdp))
          · exact hp d (List.mem_cons_of_mem c hd) hdp hmem')

/-! ## Highlight scan lemmas -/

theorem stripPrefixCI_append (p : List Char) :
    ∀ (t m r : List Char), stripPrefixCI p t = some (m, r) → m ++ r = t := by
  induction p with
  | nil =>
    intro t m r h
    simp only [stripPrefixCI, Option.some.injEq, Prod.mk.injEq] at h
    rw [← h.1, ← h.2]
    rfl
  | cons pc ps ih =>
    intro t m r h
    cases t with
    | nil => simp [stripPrefixCI] at h
    | cons tc ts =>
      simp only [stripPrefixCI] at h
      by_cases hc : ciEq pc tc
      · rw [if_pos hc] at h
        cases hsp : stripPrefixCI ps ts with
        | none => rw [hsp] at h; cases h
        | some pr =>
          obtain ⟨m', r'⟩ := pr
          rw [hsp] at h
          simp only [Option.some.injEq, Prod.mk.injEq] at h
          rw [← h.1, ← h.2]
          have := ih ts m' r' hsp
          simp [this]
      · rw [if_neg hc] at h
        cases h

theorem firstMatch_append (prev : Option Char) (text : List Char) :
    ∀ (alts : List (List Char)) (m r : List Char),
      firstMatch prev text alts = some (m, r) → m ++ r = text := by
  intro alts
  induction alts with
  | nil => intro m r h; cases h
  | cons p ps ih =>
    intro m r h
    simp only [firstMatch] at h
    cases hsp : stripPrefixCI p text with
    | none => rw [hsp] at h; exact ih m r h
    | some pr =>
      obtain ⟨m', r'⟩ := pr
      rw [hsp] at h
      dsimp only at h
      by_cases hb : (boundaryAt prev text.head?
          && boundaryAt (if m'.isEmpty then prev else m'.getLast?) r'.head?) = true
      · rw [if_pos hb] at h
        simp only [Option.some.injEq, Prod.mk.injEq] at h
        rw [← h.1, ← h.2]
        exact stripPrefixCI_append p text m' r' hsp
      · rw [if_neg hb] at h
        exact ih m r h

/-- Frame property of the global-replace scan: concatenating every
segment's payload (the text outside markers plus the wrapped spans, in
order) gives back exactly the scanned text. -/
theorem scanFuel_payload (alts : List (List Char)) :
    ∀ (fuel : Nat) (prev : Option Char) (text : List Char),
      text.length ≤ fuel →
      ((scanFuel alts fuel prev text).map segPayload).flatten = text := by
  intro fuel
  induction fuel with
  | zero =>
    intro prev text h
    have : text = [] := List.eq_nil_of_length_eq_zero (Nat.le_zero.mp h)
    subst this
    rfl
  | succ fuel ih =>
    intro prev text hlen
    cases text with
    | nil =>
      simp only [scanFuel]
      cases firstMatch prev [] alts with
      | none => rfl
      | some pr => simp [segPayload]
    | cons t ts =>
      simp only [scanFuel]
      cases hfm : firstMatch prev (t :: ts) alts with
      | none =>
        simp only [List.map_cons, List.flatten_cons, segPayload]
        rw [ih (some t) ts (Nat.le_of_succ_le_succ hlen)]
        rfl
      | some pr =>
        obtain ⟨m, r⟩ := pr
        have hmr : m ++ r = t :: ts := firstMatch_append _ _ _ _ _ hfm
        simp only [List.length_cons] at hlen
        dsimp only
        by_cases hm : m.isEmpty = true
        · rw [if_pos hm]
          simp only [List.map_cons, List.flatten_cons, segPayload]
          rw [ih (some t) ts (Nat.le_of_succ_le_succ hlen)]
          rfl
        · rw [if_neg hm]
          simp only [List.map_cons, List.flatten_cons, segPayload]
          have hm1 : 1 ≤ m.length := by
            cases m with
            | nil => simp [List.isEmpty] at hm
            | cons a l => simp
          have hr : r.length ≤ fuel := by
            have hl := congrArg List.length hmr
            simp only [List.length_append, List.length_cons] at hl
            omega
          rw [ih m.getLast? r hr, hmr]

/-! ## Claim theorems -/

/-- C1, counterexample.  The claim says the highlighter turns each
matchedSpan into a pattern whose words may be separated by one-or-more
non-alphanumeric characters, so that `"Soft-Cotton"` would be wrapped for
span `"soft cotton"`.  It does not: `renderResults` uses the escaped span
literally (words joined by a single literal space), so on the catalog
`[("soft cotton","u","a")]` and title `"Soft-Cotton Scarf"` the candidate
is found (the normalized title is `"soft cotton scarf"`) yet the rendered
title comes back completely unchanged — no highlight marker is inserted
around the punctuated form. -/
theorem c1_counterexample :
    runRenderEF (buildRows [("soft cotton", "u", "a")]) "Soft-Cotton Scarf" =
    some ("Soft-Cotton Scarf",
      [mkExact { id := 0, phrase := "soft cotton", tokens := ["soft", "cotton"],
                 url := "u", anchor := "a" } "soft cotton"]) := rfl

/-- C1, amended.  The highlighter matches each candidate's matchedSpan as a
word-boundary-anchored case-insensitive literal, its words separated by
exactly one literal space: for the same catalog, the space-separated form
`"Soft Cotton Scarf"` has its span wrapped in the highlight marker, while
the hyphenated form `"Soft-Cotton Scarf"` is returned unchanged. -/
theorem c1_amended_literal_span_highlight :
    runRenderEF (buildRows [("soft cotton", "u", "a")]) "Soft Cotton Scarf" =
      some ("<span class=\"highlight\">Soft Cotton</span> Scarf",
        [mkExact { id := 0, phrase := "soft cotton", tokens := ["soft", "cotton"],
                   url := "u", anchor := "a" } "soft cotton"]) ∧
    runRenderEF (buildRows [("soft cotton", "u", "a")]) "Soft-Cotton Scarf" =
      some ("Soft-Cotton Scarf",
        [mkExact { id := 0, phrase := "soft cotton", tokens := ["soft", "cotton"],
                   url := "u", anchor := "a" } "soft cotton"]) :=
  ⟨rfl, rfl⟩

/-- C2, counterexample.  With catalog `"cotton" ↦ (u1,a1)` and
`"soft cotton" ↦ (u2,a2)` and title `"Soft Cotton Scarf"`, the MatchSet
contains BOTH candidates — `"soft cotton"` (exact, score 2) and `"cotton"`
(exact, score 1, matched at the 1-gram `"cotton"`), whose spans overlap the
same `"soft cotton"` text.  Deduplication only collapses equal
`(url, anchor)` keys, so the claim's "exactly one Candidate survives …
never both" is false. -/
theorem c2_counterexample :
    runMatchingEF (buildRows [("cotton", "u1", "a1"), ("soft cotton", "u2", "a2")])
      "Soft Cotton Scarf" =
    some [mkExact { id := 1, phrase := "soft cotton", tokens := ["soft", "cotton"],
                    url := "u2", anchor := "a2" } "soft cotton",
          mkExact { id := 0, phrase := "cotton", tokens := ["cotton"],
                    url := "u1", anchor := "a1" } "cotton"] := rfl

/-- C2, amended.  Both candidates survive in the MatchSet (dedup is keyed
on `(url, anchor)` alone), ordered with the longer phrase first; longest-
match precedence holds only in the highlighted rendering, where the longer
span consumes `"Soft Cotton"` and the contained `"cotton"` is not wrapped
again. -/
theorem c2_amended_longest_only_in_highlight :
    runMatchingEF (buildRows [("cotton", "u1", "a1"), ("soft cotton", "u2", "a2")])
      "Soft Cotton Scarf" =
      some [mkExact { id := 1, phrase := "soft cotton", tokens := ["soft", "cotton"],
                      url := "u2", anchor := "a2" } "soft cotton",
            mkExact { id := 0, phrase := "cotton", tokens := ["cotton"],
                      url := "u1", anchor := "a1" } "cotton"] ∧
    renderTitleEF "Soft Cotton Scarf"
      (matchSetEF (buildRows [("cotton", "u1", "a1"), ("soft cotton", "u2", "a2")])
        "Soft Cotton Scarf") =
      "<span class=\"highlight\">Soft Cotton</span> Scarf" :=
  ⟨rfl, rfl⟩

/-- C3, counterexample.  Variant 1's `normalize` (src/app.js lines 91-96)
has no guard: `text.toLowerCase()` throws a `TypeError` on `undefined`, so
"normalize is total … including undefined" fails for that definition. -/
theorem c3_counterexample : jsNormalizeExact none = Except.error () := rfl

/-- C3, amended.  Variant 1's `normalize` is total on every *string*
(empty input yields the empty string) but throws on `undefined`; variant
2's `normalize` is total on all inputs, with `undefined` and the empty
string both yielding the empty string. -/
theorem c3_amended_normalize_totality :
    (∀ s : String, ∃ r, jsNormalizeExact (some s) = Except.ok r) ∧
    jsNormalizeExact (some "") = Except.ok "" ∧
    jsNormalizeScattered none = "" ∧
    jsNormalizeScattered (some "") = "" :=
  ⟨fun s => ⟨normalize s, rfl⟩, rfl, rfl, rfl⟩

/-- C4: ordering/adjacency sensitivity of the two strategies on title
`"Soft Cotton Dupatta in Pink"`.  The exact+fallback MatchSet is exactly
`[soft cotton (exact, score 2), cotton (exact, score 1)]` — in particular
it has a Candidate for `"soft cotton"` with matchType exact and score 2 and
no Candidate for `"pink dupatta"` — while the scattered MatchSet starts
with the `"pink dupatta"` Candidate (scattered, score 2), both its tokens
being present in scattered order. -/
theorem c4_strategy_contrast :
    runMatchingEF
      (buildRows [("pink dupatta", "u1", "a1"), ("cotton", "u2", "a2"),
                  ("soft cotton", "u3", "a3")])
      "Soft Cotton Dupatta in Pink" =
      some [mkExact { id := 2, phrase := "soft cotton", tokens := ["soft", "cotton"],
                      url := "u3", anchor := "a3" } "soft cotton",
            mkExact { id := 1, phrase := "cotton", tokens := ["cotton"],
                      url := "u2", anchor := "a2" } "cotton"] ∧
    runMatchingSc
      (buildRowsSc [("pink dupatta", "u1", "a1"), ("cotton", "u2", "a2"),
                    ("soft cotton", "u3", "a3")])
      "Soft Cotton Dupatta in Pink" =
      some [mkScattered { id := 0, phrase := "pink dupatta",
                          tokens := ["pink", "dupatta"], url := "u1", anchor := "a1" },
            mkScattered { id := 2, phrase := "soft cotton",
                          tokens := ["soft", "cotton"], url := "u3", anchor := "a3" },
            mkScattered { id := 1, phrase := "cotton", tokens := ["cotton"],
                          url := "u2", anchor := "a2" }] :=
  ⟨rfl, rfl⟩

/-- C5, counterexample.  The dedup key is the joined string
`` `${url}|${anchor}` ``, not the pair: the distinct pairs
`("a|b", "c")` and `("a", "b|c")` both key to `"a|b|c"`, so on catalog
`[("cotton","a|b","c"), ("soft","a","b|c")]` and title `"soft cotton"`
both rows produce candidates (two distinct pairs), yet the MatchSet keeps
only the first — the pair `("a|b","c")` occurs among the candidates but no
MatchSet element carries it, refuting "exactly one candidate with that
pair". -/
theorem c5_counterexample :
    discoveredEF (buildRows [("cotton", "a|b", "c"), ("soft", "a", "b|c")])
      "soft cotton" =
      [mkExact { id := 1, phrase := "soft", tokens := ["soft"],
                 url := "a", anchor := "b|c" } "soft",
       mkExact { id := 0, phrase := "cotton", tokens := ["cotton"],
                 url := "a|b", anchor := "c" } "cotton"] ∧
    matchSetEF (buildRows [("cotton", "a|b", "c"), ("soft", "a", "b|c")])
      "soft cotton" =
      [mkExact { id := 1, phrase := "soft", tokens := ["soft"],
                 url := "a", anchor := "b|c" } "soft"] :=
  ⟨rfl, rfl⟩

/-- C5, amended.  Deduplication keys on the joined string
`` `${url}|${anchor}` ``; whenever that key is injective on the pairs that
actually occur (in particular whenever no URL or anchor contains `"|"` in a
colliding way), the MatchSet keeps, for each distinct `(url, anchor)` pair,
exactly the first candidate of the score-sorted sequence carrying that
pair. -/
theorem c5_dedup_first_per_pair (catalog : List Row) (raw : String)
    (hinj : ∀ a ∈ sortByDesc Candidate.score (discoveredEF catalog raw),
        ∀ b ∈ sortByDesc Candidate.score (discoveredEF catalog raw),
        linkKey a = linkKey b → pairOf a = pairOf b) :
    ∀ p, (matchSetEF catalog raw).filter (fun c => decide (pairOf c = p)) =
      ((sortByDesc Candidate.score (discoveredEF catalog raw)).filter
        (fun c => decide (pairOf c = p))).take 1 := by
  intro p
  exact dedupAuxC_filter_take p _ [] hinj (fun d _ _ => List.not_mem_nil _)

/-- C5, witness: on catalog `[("cotton","u1","a1")]` and title `"cotton"`
the key is injective on the occurring candidates and the MatchSet's
candidates with pair `("u1","a1")` are exactly the first sorted one. -/
theorem c5_dedup_first_per_pair_witness :
    (matchSetEF (buildRows [("cotton", "u1", "a1")]) "cotton").filter
        (fun c => decide (pairOf c = ("u1", "a1"))) =
      ((sortByDesc Candidate.score
          (discoveredEF (buildRows [("cotton", "u1", "a1")]) "cotton")).filter
        (fun c => decide (pairOf c = ("u1", "a1")))).take 1 :=
  c5_dedup_first_per_pair (buildRows [("cotton", "u1", "a1")]) "cotton"
    (by decide) ("u1", "a1")

/-- C6: the ranking sort is stable.  In both variants the MatchSet is
ordered by score descending (`Pairwise`), the sort permutes nothing within
one score class (`filter` over the sorted list equals `filter` over the
discovery list), and since dedup only removes elements, the MatchSet's
candidates of each score appear as a subsequence of — i.e. in the same
relative order as — the Matcher's discovery sequence. -/
theorem c6_ranking_stable (catalog : List Row) (raw : String) :
    (matchSetEF catalog raw).Pairwise (fun a b => b.score ≤ a.score) ∧
    (∀ s, (sortByDesc Candidate.score (discoveredEF catalog raw)).filter
        (fun c => c.score == s) =
      (discoveredEF catalog raw).filter (fun c => c.score == s)) ∧
    (∀ s, List.Sublist
      ((matchSetEF catalog raw).filter (fun c => c.score == s))
      ((discoveredEF catalog raw).filter (fun c => c.score == s))) ∧
    (matchSetSc catalog raw).Pairwise (fun a b => b.score ≤ a.score) ∧
    (∀ s, List.Sublist
      ((matchSetSc catalog raw).filter (fun c => c.score == s))
      ((discoveredSc catalog raw).filter (fun c => c.score == s))) := by
  refine ⟨?_, ?_, ?_, ?_, ?_⟩
  · exact List.Pairwise.sublist (dedupAuxC_sublist [] _)
      (pairwise_sortByDesc Candidate.score _)
  · exact fun s => filter_sortByDesc Candidate.score _ s
  · intro s
    have h := ((dedupAuxC_sublist []
      (sortByDesc Candidate.score (discoveredEF catalog raw))).filter
        (fun c => c.score == s))
    rwa [filter_sortByDesc] at h
  · exact List.Pairwise.sublist (dedupAuxC_sublist [] _)
      (pairwise_sortByDesc Candidate.score _)
  · intro s
    have h := ((dedupAuxC_sublist []
      (sortByDesc Candidate.score (discoveredSc catalog raw))).filter
        (fun c => c.score == s))
    rwa [filter_sortByDesc] at h

/-- C9: highlighting never alters text outside matched spans.  The replace
output is an interleaving of literal segments and marker-wrapped spans
(`renderTitle… = flatten (map renderSeg segs)`, definitionally); this
theorem states that deleting the inserted `<span class="highlight">` /
`</span>` marker strings from that output — i.e. concatenating every
segment's payload — reproduces the original title character for character,
in order, for both variants' renderers, for every title and match set. -/
theorem c9_highlight_frame (title : String) (ms : List Candidate) :
    ((renderSegsEF title ms).map segPayload).flatten = title.data ∧
    ((renderSegsSc title ms).map segPayload).flatten = title.data := by
  constructor
  · unfold renderSegsEF
    by_cases h : ms.isEmpty
    · rw [if_pos h]
      simp [segPayload]
    · rw [if_neg h]
      exact scanFuel_payload _ _ none title.data (Nat.le_refl _)
  · unfold renderSegsSc
    by_cases h : (allMatchedKeywords ms).isEmpty
    · rw [if_pos h]
      simp [segPayload]
    · rw [if_neg h]
      exact scanFuel_payload _ _ none title.data (Nat.le_refl _)

/-- Pass 2 over an empty query-token list emits nothing: the membership
test `h1Tokens.includes(token)` is false against no tokens. -/
theorem pass2_nil_tokens (catalog : List Row) :
    ∀ st, pass2 catalog [] st = st := by
  induction catalog with
  | nil => intro st; rfl
  | cons row rest ih =>
    intro st
    have hstep : (if row.id ∈ st.2 then st
        else if row.tokens.length == 1 && List.contains ([] : List String) row.phrase
          then (st.1 ++ [mkFallback row], row.id :: st.2) else st) = st := by
      by_cases h : row.id ∈ st.2
      · rw [if_pos h]
      · rw [if_neg h]
        have hc : (row.tokens.length == 1 && List.contains ([] : List String) row.phrase)
            = false := by simp [List.contains]
        rw [hc]
        rfl
    have hunf : pass2 (row :: rest) [] st
        = pass2 rest [] (if row.id ∈ st.2 then st
          else if row.tokens.length == 1 && List.contains ([] : List String) row.phrase
            then (st.1 ++ [mkFallback row], row.id :: st.2) else st) := rfl
    rw [hunf, hstep]
    exact ih st

/-- Scattered matching over an empty query-token list emits nothing, as
long as every catalog row has at least one keyword (which the load filter
guarantees): `every` fails on the first keyword. -/
theorem scatteredMatches_nil_tokens (catalog : List Row)
    (hkw : ∀ r ∈ catalog, r.tokens ≠ []) :
    scatteredMatches catalog [] = [] := by
  suffices h : ∀ acc, catalog.foldl
      (fun ms row =>
        if row.tokens.all (fun k => List.contains ([] : List String) k) then
          ms ++ [mkScattered row]
        else ms) acc = acc from h []
  induction catalog with
  | nil => intro acc; rfl
  | cons row rest ih =>
    intro acc
    rw [List.foldl_cons]
    have hall : (row.tokens.all (fun k => List.contains ([] : List String) k)) = false := by
      cases hrow : row.tokens with
      | nil => exact absurd hrow (hkw row (List.mem_cons_self row rest))
      | cons t ts => simp [List.contains]
    rw [hall]
    exact ih (fun r hr => hkw r (List.mem_cons_of_mem row hr)) acc

/-- C10: a raw title that is non-empty after trimming but normalizes to the
empty string (e.g. `"!!!"`) passes both input guards; the run completes,
the MatchSet is empty (no tokens, so no n-grams, no fallback hits and no
scattered hits), it replaces `lastMatches`, and the export buttons then do
nothing. -/
theorem c10_empty_normalization_run (catalog : List Row) (raw : String)
    (hcat : catalog ≠ []) (htrim : jsTrim raw ≠ "")
    (hnorm : normalize raw = "") :
    runMatchingEF catalog raw = some [] ∧
    (∀ st : AppState, st.csvData = catalog →
      (clickRun st raw).lastMatches = [] ∧ exportFires (clickRun st raw) = false) ∧
    ((∀ r ∈ catalog, r.tokens ≠ []) → runMatchingSc catalog raw = some []) := by
  have hms : matchSetEF catalog raw = [] := by
    unfold matchSetEF discoveredEF
    rw [hnorm]
    have hg : generateNGrams "" = ([], []) := rfl
    rw [hg]
    dsimp only
    rw [pass2_nil_tokens]
    rfl
  have hlen : ¬ (catalog.length == 0) = true := by
    cases catalog with
    | nil => exact absurd rfl hcat
    | cons a l => simp
  have htrim' : ¬ (jsTrim raw == "") = true := by
    simp only [beq_iff_eq]
    exact htrim
  have hrunEF : runMatchingEF catalog raw = some [] := by
    unfold runMatchingEF
    rw [if_neg hlen, if_neg htrim', hms]
  refine ⟨hrunEF, ?_, ?_⟩
  · intro st hst
    have hclick : clickRun st raw = { st with lastMatches := [] } := by
      unfold clickRun
      rw [hst, hrunEF]
    rw [hclick]
    exact ⟨rfl, rfl⟩
  · intro hkw
    have hmsSc : matchSetSc catalog raw = [] := by
      unfold matchSetSc discoveredSc
      rw [hnorm]
      have hsp : splitTokens "" = [] := rfl
      rw [hsp, scatteredMatches_nil_tokens catalog hkw]
      rfl
    unfold runMatchingSc
    rw [if_neg hlen, if_neg htrim', hmsSc]

/-- C10, witness: catalog `[("cotton","u","a")]`, raw title `"!!!"` (trim
leaves `"!!!"`, normalization empties it) and a state holding a previous
non-empty result: the run yields an empty MatchSet, overwrites the stored
result, and exports no longer fire. -/
theorem c10_empty_normalization_run_witness :
    runMatchingEF (buildRows [("cotton", "u", "a")]) "!!!" = some [] ∧
    (clickRun
      { csvData := buildRows [("cotton", "u", "a")]
        lastMatches := [mkExact { id := 0, phrase := "cotton", tokens := ["cotton"],
                                  url := "u", anchor := "a" } "cotton"] }
      "!!!").lastMatches = [] ∧
    exportFires (clickRun
      { csvData := buildRows [("cotton", "u", "a")]
        lastMatches := [mkExact { id := 0, phrase := "cotton", tokens := ["cotton"],
                                  url := "u", anchor := "a" } "cotton"] }
      "!!!") = false ∧
    runMatchingSc (buildRows [("cotton", "u", "a")]) "!!!" = some [] := by
  have h := c10_empty_normalization_run (buildRows [("cotton", "u", "a")]) "!!!"
    (by decide) (by decide) (by decide)
  have h2 := h.2.1
    { csvData := buildRows [("cotton", "u", "a")]
      lastMatches := [mkExact { id := 0, phrase := "cotton", tokens := ["cotton"],
                                url := "u", anchor := "a" } "cotton"] } rfl
  exact ⟨h.1, h2.1, h2.2, h.2.2 (by decide)⟩

/-! ## N-gram dedup characterization (for C7) -/

theorem mem_dedupAux (l : List String) :
    ∀ (seen : List String) (g : String),
      g ∈ dedupAux seen l ↔ g ∈ l ∧ g ∉ seen := by
  induction l with
  | nil => intro seen g; simp [dedupAux]
  | cons a rest ih =>
    intro seen g
    by_cases h : a ∈ seen
    · simp only [dedupAux, if_pos h, ih seen g, List.mem_cons]
      constructor
      · rintro ⟨hg, hs⟩
        exact ⟨Or.inr hg, hs⟩
      · rintro ⟨hg | hg, hs⟩
        · subst hg
          exact absurd h hs
        · exact ⟨hg, hs⟩
    · simp only [dedupAux, if_neg h, List.mem_cons, ih (a :: seen) g]
      by_cases hga : g = a
      · subst hga
        simp [h]
      · simp [hga]

theorem nodup_dedupAux (l : List String) :
    ∀ seen : List String, (dedupAux seen l).Nodup := by
  induction l with
  | nil => intro seen; simp [dedupAux]
  | cons a rest ih =>
    intro seen
    by_cases h : a ∈ seen
    · simp only [dedupAux, if_pos h]
      exact ih seen
    · simp only [dedupAux, if_neg h]
      refine List.nodup_cons.mpr ⟨?_, ih (a :: seen)⟩
      intro hmem
      exact ((mem_dedupAux rest (a :: seen) a).mp hmem).2 (List.mem_cons_self a seen)

theorem indexOf_dedupAux (l : List String) :
    ∀ (seen : List String) (a b : String),
      a ∈ dedupAux seen l → b ∈ dedupAux seen l →
      ((dedupAux seen l).indexOf a ≤ (dedupAux seen l).indexOf b ↔
        l.indexOf a ≤ l.indexOf b) := by
  induction l with
  | nil => intro seen a b ha _; simp [dedupAux] at ha
  | cons g rest ih =>
    intro seen a b ha hb
    by_cases h : g ∈ seen
    · simp only [dedupAux, if_pos h] at ha hb ⊢
      have hag : g ≠ a := fun hga =>
        ((mem_dedupAux rest seen a).mp ha).2 (hga ▸ h)
      have hbg : g ≠ b := fun hgb =>
        ((mem_dedupAux rest seen b).mp hb).2 (hgb ▸ h)
      rw [List.indexOf_cons_ne rest hag, List.indexOf_cons_ne rest hbg,
        Nat.succ_le_succ_iff]
      exact ih seen a b ha hb
    · simp only [dedupAux, if_neg h] at ha hb ⊢
      by_cases hag : a = g
      · subst hag
        simp only [List.indexOf_cons_self, Nat.zero_le, true_iff, iff_true]
      · have ha' : a ∈ dedupAux (g :: seen) rest := by
          rcases List.mem_cons.mp ha with h' | h'
          · exact absurd h' hag
          · exact h'
        by_cases hbg : b = g
        · subst hbg
          rw [List.indexOf_cons_self, List.indexOf_cons_self,
            List.indexOf_cons_ne _ (fun hgb => hag hgb.symm),
            List.indexOf_cons_ne _ (fun hgb => hag hgb.symm)]
          omega
        · have hb' : b ∈ dedupAux (g :: seen) rest := by
            rcases List.mem_cons.mp hb with h' | h'
            · exact absurd h' hbg
            · exact h'
          rw [List.indexOf_cons_ne _ (fun hga => hag hga.symm),
            List.indexOf_cons_ne _ (fun hgb => hbg hgb.symm),
            List.indexOf_cons_ne rest (fun hga => hag hga.symm),
            List.indexOf_cons_ne rest (fun hgb => hbg hgb.symm),
            Nat.succ_le_succ_iff, Nat.succ_le_succ_iff]
          exact ih (g :: seen) a b ha' hb'

/-- C7: `generateNGrams` emits the window enumeration `rawNGrams` — sizes
`n = min(4, tokenCount) … 1`, each scanned left-to-right — with duplicate
window texts suppressed after their first emission: the returned list is
duplicate-free, it contains exactly the window texts of the enumeration,
and any two returned grams are ordered exactly as their first occurrences
in the enumeration, i.e. each distinct window text appears once, at its
first (longest-window) position in that order. -/
theorem c7_ngram_dedup_first (text : String) :
    (generateNGrams text).1.Nodup ∧
    (∀ g, g ∈ (generateNGrams text).1 ↔ g ∈ rawNGrams (splitTokens text)) ∧
    (∀ a b, a ∈ (generateNGrams text).1 → b ∈ (generateNGrams text).1 →
      ((generateNGrams text).1.indexOf a ≤ (generateNGrams text).1.indexOf b ↔
        (rawNGrams (splitTokens text)).indexOf a ≤
          (rawNGrams (splitTokens text)).indexOf b)) := by
  refine ⟨nodup_dedupAux _ [], ?_, ?_⟩
  · intro g
    rw [show (generateNGrams text).1 = dedupAux [] (rawNGrams (splitTokens text)) from rfl,
      mem_dedupAux]
    simp
  · intro a b ha hb
    exact indexOf_dedupAux (rawNGrams (splitTokens text)) [] a b ha hb

/-- C7, witness at `"pink soft pink"`: the n-gram list is duplicate-free,
membership matches the raw enumeration for `"pink soft"`, and `"soft"` and
`"pink"` (whose second raw occurrence is suppressed) compare by their first
raw positions. -/
theorem c7_ngram_dedup_first_witness :
    (generateNGrams "pink soft pink").1.Nodup ∧
    ("pink soft" ∈ (generateNGrams "pink soft pink").1 ↔
      "pink soft" ∈ rawNGrams (splitTokens "pink soft pink")) ∧
    ((generateNGrams "pink soft pink").1.indexOf "soft" ≤
        (generateNGrams "pink soft pink").1.indexOf "pink" ↔
      (rawNGrams (splitTokens "pink soft pink")).indexOf "soft" ≤
        (rawNGrams (splitTokens "pink soft pink")).indexOf "pink") :=
  ⟨(c7_ngram_dedup_first "pink soft pink").1,
   (c7_ngram_dedup_first "pink soft pink").2.1 "pink soft",
   (c7_ngram_dedup_first "pink soft pink").2.2 "soft" "pink" (by decide) (by decide)⟩

/-! ## Normalizer idempotence (for C8)

The normalizer's output consists of `[a-z0-9]` characters and single
spaces, with no leading/trailing/double whitespace; every stage of the
chain is the identity on such strings. -/

theorem isKeptChar_ranges {c : Char} (h : isKeptChar c = true) :
    ('a' ≤ c ∧ c ≤ 'z') ∨ ('0' ≤ c ∧ c ≤ '9') := by
  simp only [isKeptChar, Bool.or_eq_true, Bool.and_eq_true, decide_eq_true_eq] at h
  exact h

theorem jsToLowerChar_fix {c : Char} (h : isKeptChar c = true ∨ c = ' ') :
    jsToLowerChar c = c := by
  rcases h with h | rfl
  · rcases isKeptChar_ranges h with ⟨h1, h2⟩ | ⟨h1, h2⟩
    · have hz : ¬ (c ≤ 'Z') := fun hle => absurd (le_trans h1 hle) (by decide)
      unfold jsToLowerChar
      simp [hz]
    · have ha : ¬ ('A' ≤ c) := fun hle => absurd (le_trans hle h2) (by decide)
      unfold jsToLowerChar
      simp [ha]
  · decide

theorem isKeptChar_not_space {c : Char} (h : isKeptChar c = true) :
    isSpaceJs c = false := by
  by_contra hs
  rw [Bool.not_eq_false] at hs
  simp only [isSpaceJs, Bool.or_eq_true, beq_iff_eq] at hs
  rcases isKeptChar_ranges h with ⟨h1, _⟩ | ⟨h1, _⟩ <;>
    rcases hs with ((((rfl | rfl) | rfl) | rfl) | rfl) | rfl <;>
    exact absurd h1 (by decide)

theorem space_eq_blank {c : Char} (h : isKeptChar c = true ∨ c = ' ')
    (hs : isSpaceJs c = true) : c = ' ' := by
  rcases h with h | rfl
  · rw [isKeptChar_not_space h] at hs
    cases hs
  · rfl

theorem lowerPunct_fix {c : Char} (h : isKeptChar c = true ∨ c = ' ') :
    lowerPunct c = c := by
  rcases h with h | rfl
  · unfold lowerPunct punctToSpace
    rw [jsToLowerChar_fix (Or.inl h)]
    simp [h]
  · decide

theorem lowerPunct_chars (c : Char) :
    isKeptChar (lowerPunct c) = true ∨ isSpaceJs (lowerPunct c) = true := by
  unfold lowerPunct punctToSpace
  by_cases h : (isKeptChar (jsToLowerChar c) || isSpaceJs (jsToLowerChar c)) = true
  · rw [if_pos h]
    exact (Bool.or_eq_true _ _).mp h
  · rw [if_neg h]
    exact Or.inr (by decide)

theorem collapseWs_chars : ∀ (m : List Char),
    (∀ c ∈ m, isKeptChar c = true ∨ isSpaceJs c = true) →
    ∀ c ∈ collapseWs m, isKeptChar c = true ∨ c = ' ' := by
  intro m
  induction m with
  | nil => intro _ c hc; simp [collapseWs] at hc
  | cons c1 rest ih =>
    intro hm c hc
    cases rest with
    | nil =>
      by_cases h1 : isSpaceJs c1 = true
      · simp only [collapseWs, if_pos h1, List.mem_singleton] at hc
        exact Or.inr hc
      · simp only [collapseWs, if_neg h1, List.mem_singleton] at hc
        subst hc
        rcases hm c (List.mem_cons_self _ _) with hk | hs
        · exact Or.inl hk
        · exact absurd hs h1
    | cons c2 r2 =>
      have hm' : ∀ d ∈ c2 :: r2, isKeptChar d = true ∨ isSpaceJs d = true :=
        fun d hd => hm d (List.mem_cons_of_mem c1 hd)
      by_cases h1 : isSpaceJs c1 = true
      · by_cases h2 : isSpaceJs c2 = true
        · simp only [collapseWs, if_pos h1, if_pos h2] at hc
          exact ih hm' c hc
        · simp only [collapseWs, if_pos h1, if_neg h2, List.mem_cons] at hc
          rcases hc with rfl | hc
          · exact Or.inr rfl
          · exact ih hm' c hc
      · simp only [collapseWs, if_neg h1, List.mem_cons] at hc
        rcases hc with rfl | hc
        · rcases hm c (List.mem_cons_self _ _) with hk | hs
          · exact Or.inl hk
          · exact absurd hs h1
        · exact ih hm' c hc

theorem collapseWs_cons_head : ∀ (t0 : List Char) (c0 : Char),
    ∃ c t, collapseWs (c0 :: t0) = c :: t ∧ isSpaceJs c = isSpaceJs c0 := by
  intro t0
  induction t0 with
  | nil =>
    intro c0
    by_cases h : isSpaceJs c0 = true
    · exact ⟨' ', [], by simp [collapseWs, h], by rw [h]; decide⟩
    · exact ⟨c0, [], by simp [collapseWs, h], rfl⟩
  | cons c2 r2 ih =>
    intro c0
    by_cases h1 : isSpaceJs c0 = true
    · by_cases h2 : isSpaceJs c2 = true
      · obtain ⟨c, t, hct, hcs⟩ := ih c2
        exact ⟨c, t, by simp only [collapseWs, if_pos h1, if_pos h2]; exact hct,
          by rw [hcs, h2, h1]⟩
      · exact ⟨' ', collapseWs (c2 :: r2),
          by simp only [collapseWs, if_pos h1, if_neg h2],
          by rw [h1]; decide⟩
    · exact ⟨c0, collapseWs (c2 :: r2), by simp only [collapseWs, if_neg h1], rfl⟩

theorem collapseWs_noDouble : ∀ (m : List Char), NoDouble (collapseWs m) := by
  intro m
  induction m with
  | nil => simp [collapseWs, NoDouble]
  | cons c1 rest ih =>
    cases rest with
    | nil =>
      unfold NoDouble
      by_cases h : isSpaceJs c1 = true <;> simp [collapseWs, h]
    | cons c2 r2 =>
      by_cases h1 : isSpaceJs c1 = true
      · by_cases h2 : isSpaceJs c2 = true
        · unfold NoDouble
          simp only [collapseWs, if_pos h1, if_pos h2]
          exact ih
        · unfold NoDouble
          simp only [collapseWs, if_pos h1, if_neg h2]
          obtain ⟨c, t, hct, hcs⟩ := collapseWs_cons_head r2 c2
          rw [hct, List.chain'_cons]
          refine ⟨fun hsp => ?_, ?_⟩
          · exact h2 (by rw [← hcs]; exact hsp.2)
          · rw [← hct]
            exact ih
      · unfold NoDouble
        simp only [collapseWs, if_neg h1]
        obtain ⟨c, t, hct, hcs⟩ := collapseWs_cons_head r2 c2
        rw [hct, List.chain'_cons]
        refine ⟨fun hsp => h1 hsp.1, ?_⟩
        rw [← hct]
        exact ih

theorem collapseWs_fix : ∀ (l : List Char),
    (∀ c ∈ l, isSpaceJs c = true → c = ' ') → NoDouble l → collapseWs l = l := by
  intro l
  induction l with
  | nil => intro _ _; rfl
  | cons c1 rest ih =>
    intro hsp hnd
    cases rest with
    | nil =>
      by_cases h : isSpaceJs c1 = true
      · simp only [collapseWs, if_pos h]
        rw [hsp c1 (List.mem_cons_self _ _) h]
      · simp only [collapseWs, if_neg h]
    | cons c2 r2 =>
      unfold NoDouble at hnd
      rw [List.chain'_cons] at hnd
      have hnd' : NoDouble (c2 :: r2) := hnd.2
      have hsp' : ∀ c ∈ c2 :: r2, isSpaceJs c = true → c = ' ' :=
        fun c hc => hsp c (List.mem_cons_of_mem _ hc)
      by_cases h1 : isSpaceJs c1 = true
      · have h2 : ¬ (isSpaceJs c2 = true) := fun h2 => hnd.1 ⟨h1, h2⟩
        simp only [collapseWs, if_pos h1, if_neg h2]
        rw [hsp c1 (List.mem_cons_self _ _) h1, ih hsp' hnd']
      · simp only [collapseWs, if_neg h1]
        rw [ih hsp' hnd']

theorem dropWhile_head?_not (p : Char → Bool) : ∀ (l : List Char) (c : Char),
    (l.dropWhile p).head? = some c → p c = false := by
  intro l
  induction l with
  | nil => intro c hc; cases hc
  | cons a t ih =>
    intro c hc
    by_cases h : p a = true
    · rw [List.dropWhile_cons, if_pos h] at hc
      exact ih c hc
    · rw [List.dropWhile_cons, if_neg h] at hc
      rw [List.head?_cons, Option.some.injEq] at hc
      subst hc
      exact Bool.not_eq_true _ ▸ h

theorem dropWhile_of_head?_not (p : Char → Bool) (l : List Char)
    (h : ∀ c, l.head? = some c → p c = false) : l.dropWhile p = l := by
  cases l with
  | nil => rfl
  | cons a t =>
    rw [List.dropWhile_cons, if_neg]
    rw [h a rfl]
    simp

theorem getLast?_dropWhile (p : Char → Bool) : ∀ (l : List Char),
    l.dropWhile p = [] ∨ (l.dropWhile p).getLast? = l.getLast? := by
  intro l
  induction l with
  | nil => exact Or.inl rfl
  | cons a t ih =>
    by_cases h : p a = true
    · cases t with
      | nil => exact Or.inl (by rw [List.dropWhile_cons, if_pos h]; rfl)
      | cons b t2 =>
        rw [List.dropWhile_cons, if_pos h]
        rcases ih with hnil | hlast
        · exact Or.inl hnil
        · exact Or.inr (by rw [hlast, List.getLast?_cons_cons])
    · rw [List.dropWhile_cons, if_neg h]
      exact Or.inr rfl

theorem trimWs_idem (x : List Char) : trimWs (trimWs x) = trimWs x := by
  unfold trimWs
  have hz : (((x.dropWhile isSpaceJs).reverse.dropWhile isSpaceJs).reverse).dropWhile
        isSpaceJs
      = ((x.dropWhile isSpaceJs).reverse.dropWhile isSpaceJs).reverse := by
    apply dropWhile_of_head?_not
    intro c hc
    rw [List.head?_reverse] at hc
    rcases getLast?_dropWhile isSpaceJs (x.dropWhile isSpaceJs).reverse with hnil | hlast
    · rw [hnil] at hc
      cases hc
    · rw [hlast, List.getLast?_reverse] at hc
      exact dropWhile_head?_not isSpaceJs x c hc
  rw [hz, List.reverse_reverse]
  have hz2 : ((x.dropWhile isSpaceJs).reverse.dropWhile isSpaceJs).dropWhile isSpaceJs
      = (x.dropWhile isSpaceJs).reverse.dropWhile isSpaceJs := by
    apply dropWhile_of_head?_not
    intro c hc
    exact dropWhile_head?_not isSpaceJs _ c hc
  rw [hz2]

theorem trimWs_mem {c : Char} {l : List Char} (h : c ∈ trimWs l) : c ∈ l := by
  unfold trimWs at h
  rw [List.mem_reverse] at h
  have h1 : c ∈ (l.dropWhile isSpaceJs).reverse :=
    List.IsSuffix.mem h (List.dropWhile_suffix isSpaceJs)
  rw [List.mem_reverse] at h1
  exact List.IsSuffix.mem h1 (List.dropWhile_suffix isSpaceJs)

theorem trimWs_noDouble {l : List Char} (h : NoDouble l) : NoDouble (trimWs l) := by
  unfold NoDouble at h ⊢
  unfold trimWs
  have h1 := h.suffix (List.dropWhile_suffix isSpaceJs)
  have h2 : List.Chain' (fun a b => ¬(isSpaceJs a = true ∧ isSpaceJs b = true))
      (l.dropWhile isSpaceJs).reverse := by
    rw [List.chain'_reverse]
    exact h1.imp (fun a b hab hc => hab ⟨hc.2, hc.1⟩)
  have h3 := h2.suffix (List.dropWhile_suffix isSpaceJs)
  rw [List.chain'_reverse]
  exact h3.imp (fun a b hab hc => hab ⟨hc.2, hc.1⟩)

theorem map_id_of_fix {f : Char → Char} : ∀ (l : List Char),
    (∀ c ∈ l, f c = c) → l.map f = l := by
  intro l
  induction l with
  | nil => intro _; rfl
  | cons a t ih =>
    intro h
    rw [List.map_cons, h a (List.mem_cons_self _ _),
      ih (fun c hc => h c (List.mem_cons_of_mem _ hc))]

theorem normalizeL_idem (l : List Char) : normalizeL (normalizeL l) = normalizeL l := by
  have hchars0 : ∀ c ∈ l.map lowerPunct, isKeptChar c = true ∨ isSpaceJs c = true := by
    intro c hc
    rcases List.mem_map.mp hc with ⟨a, _, rfl⟩
    exact lowerPunct_chars a
  have hchars1 : ∀ c ∈ collapseWs (l.map lowerPunct), isKeptChar c = true ∨ c = ' ' :=
    collapseWs_chars (l.map lowerPunct) hchars0
  have hchars : ∀ c ∈ normalizeL l, isKeptChar c = true ∨ c = ' ' :=
    fun c hc => hchars1 c (trimWs_mem hc)
  have hnd : NoDouble (normalizeL l) :=
    trimWs_noDouble (collapseWs_noDouble (l.map lowerPunct))
  have hmap : (normalizeL l).map lowerPunct = normalizeL l :=
    map_id_of_fix _ (fun c hc => lowerPunct_fix (hchars c hc))
  have hcol : collapseWs (normalizeL l) = normalizeL l :=
    collapseWs_fix _ (fun c hc hs => space_eq_blank (hchars c hc) hs) hnd
  show trimWs (collapseWs ((normalizeL l).map lowerPunct)) = normalizeL l
  rw [hmap, hcol]
  exact trimWs_idem _

/-- C8: `normalize` is idempotent — its output (lowercase alphanumerics and
single interior spaces, trimmed) is a fixed point of every stage of the
chain — and the concrete evaluation `normalize("Soft-Cotton!")` is
`"soft cotton"`. -/
theorem c8_normalize_idempotent :
    (∀ s : String, normalize (normalize s) = normalize s) ∧
    normalize "Soft-Cotton!" = "soft cotton" := by
  constructor
  · intro s
    show String.mk (normalizeL (String.mk (normalizeL s.data)).data) = _
    exact congrArg String.mk (normalizeL_idem s.data)
  · rfl

end Pdp
